import Mathlib

/-!
Verification of the LBM wind-simulation kernel
(`run_professional_lbm_simulation` in `src/colab/wind_simulation_module.py`)
as a shallow embedding over exact rationals.

The kernel state is the D2Q9 population grid `F : Fin ny → Fin nx → Fin 9 → ℚ`.
Each sub-step of the per-iteration cycle (streaming, bounce-back, outflow,
macroscopic recompute, inflow forcing, BGK collision) is translated directly
from the source loops into a pure function; the iteration loop is structural
recursion.  Floating-point trigonometry (the inlet-velocity formula) is
embedded over `ℝ`; everything else in the kernel is exact rational arithmetic.
-/

namespace LBM

/-- D2Q9 direction x-components, from the source array
`c = [[0,0],[1,0],[0,1],[-1,0],[0,-1],[1,1],[-1,1],[-1,-1],[1,-1]]`,
`cx[k] = c[k,0]`. -/
def cX : Fin 9 → ℤ := ![0, 1, 0, -1, 0, 1, -1, -1, 1]

/-- D2Q9 direction y-components, `cy[k] = c[k,1]`. -/
def cY : Fin 9 → ℤ := ![0, 0, 1, 0, -1, 1, 1, -1, -1]

/-- D2Q9 weights, from the source array
`w = [4/9, 1/9, 1/9, 1/9, 1/9, 1/36, 1/36, 1/36, 1/36]`. -/
def w : Fin 9 → ℚ := ![4/9, 1/9, 1/9, 1/9, 1/9, 1/36, 1/36, 1/36, 1/36]

/-- A population grid: `ny × nx` cells, 9 populations per cell. -/
def Grid (ny nx : ℕ) : Type := Fin ny → Fin nx → Fin 9 → ℚ

/-- A scalar field over the grid (`rho`, `ux`, `uy`). -/
def Field (ny nx : ℕ) : Type := Fin ny → Fin nx → ℚ

/-- The source's streaming-index adjustment: starting from `s = j - c`,
`if s < 0: s += n elif s >= n: s -= n`. -/
def wrapZ (n : ℕ) (s : ℤ) : ℤ :=
  if s < 0 then s + n else if (n : ℤ) ≤ s then s - n else s

theorem wrapZ_nonneg (n : ℕ) (s : ℤ) (h1 : -1 ≤ s) (h2 : s ≤ (n : ℤ)) (hn : 0 < n) :
    0 ≤ wrapZ n s := by
  unfold wrapZ; split_ifs <;> omega

theorem wrapZ_lt (n : ℕ) (s : ℤ) (h1 : -1 ≤ s) (h2 : s ≤ (n : ℤ)) (hn : 0 < n) :
    wrapZ n s < (n : ℤ) := by
  unfold wrapZ; split_ifs <;> omega

theorem cY_bounds (k : Fin 9) : -1 ≤ cY k ∧ cY k ≤ 1 := by
  fin_cases k <;> simp [cY] <;> decide

theorem cX_bounds (k : Fin 9) : -1 ≤ cX k ∧ cX k ≤ 1 := by
  fin_cases k <;> simp [cX] <;> decide

theorem wrap_toNat_lt (n : ℕ) (j : Fin n) (d : ℤ) (hd1 : -1 ≤ d) (hd2 : d ≤ 1) :
    (wrapZ n ((j : ℤ) - d)).toNat < n := by
  have hj : (j : ℤ) < n := by exact_mod_cast j.isLt
  have h0 : (0 : ℤ) ≤ (j : ℤ) := Int.ofNat_nonneg _
  have hn : 0 < n := j.pos
  have h1 : -1 ≤ (j : ℤ) - d := by omega
  have h2 : (j : ℤ) - d ≤ (n : ℤ) := by omega
  have := wrapZ_nonneg n ((j : ℤ) - d) h1 h2 hn
  have := wrapZ_lt n ((j : ℤ) - d) h1 h2 hn
  omega

/-- Streaming source row for direction `k`:
`sj = j - cy[k]`, adjusted by the wrap conditionals. -/
def srcRow {ny : ℕ} (j : Fin ny) (k : Fin 9) : Fin ny :=
  ⟨(wrapZ ny ((j : ℤ) - cY k)).toNat,
    wrap_toNat_lt ny j (cY k) (cY_bounds k).1 (cY_bounds k).2⟩

/-- Streaming source column for direction `k`:
`si = i - cx[k]`, adjusted by the wrap conditionals. -/
def srcCol {nx : ℕ} (i : Fin nx) (k : Fin 9) : Fin nx :=
  ⟨(wrapZ nx ((i : ℤ) - cX k)).toNat,
    wrap_toNat_lt nx i (cX k) (cX_bounds k).1 (cX_bounds k).2⟩

/-- The streaming step: `F_streamed[j,i,k] = F[sj,si,k]`, written to a fresh
staging buffer (this function only reads the pre-step snapshot `F`), after
which the source swaps buffers.  The value returned here is the live
(post-swap) buffer. -/
def stream {ny nx : ℕ} (F : Grid ny nx) : Grid ny nx :=
  fun j i k => F (srcRow j k) (srcCol i k) k

/-- Periodic source row expressed with modular arithmetic:
`(j - cy[k]) mod ny`. -/
def srcRowMod {ny : ℕ} (j : Fin ny) (k : Fin 9) : Fin ny :=
  ⟨(((j : ℤ) - cY k) % (ny : ℤ)).toNat, by
    have hn : (0 : ℤ) < (ny : ℤ) := by exact_mod_cast j.pos
    have h1 := Int.emod_nonneg ((j : ℤ) - cY k) (by omega : (ny : ℤ) ≠ 0)
    have h2 := Int.emod_lt_of_pos ((j : ℤ) - cY k) hn
    omega⟩

/-- Periodic source column expressed with modular arithmetic:
`(i - cx[k]) mod nx`. -/
def srcColMod {nx : ℕ} (i : Fin nx) (k : Fin 9) : Fin nx :=
  ⟨(((i : ℤ) - cX k) % (nx : ℤ)).toNat, by
    have hn : (0 : ℤ) < (nx : ℤ) := by exact_mod_cast i.pos
    have h1 := Int.emod_nonneg ((i : ℤ) - cX k) (by omega : (nx : ℤ) ≠ 0)
    have h2 := Int.emod_lt_of_pos ((i : ℤ) - cX k) hn
    omega⟩

theorem wrapZ_eq_emod (n : ℕ) (s : ℤ) (h1 : -1 ≤ s) (h2 : s ≤ (n : ℤ)) (hn : 0 < n) :
    wrapZ n s = s % (n : ℤ) := by
  have hn' : (0 : ℤ) < (n : ℤ) := by exact_mod_cast hn
  unfold wrapZ
  split_ifs with ha hb
  · have hs : s = -1 := by omega
    subst hs
    have hrw : (-1 : ℤ) % (n : ℤ) = ((n : ℤ) - 1) % (n : ℤ) := by
      conv_lhs => rw [show (-1 : ℤ) = ((n : ℤ) - 1) + (n : ℤ) * (-1) by ring]
      rw [Int.add_mul_emod_self_left]
    rw [hrw, Int.emod_eq_of_lt (by omega) (by omega)]
    ring
  · have hs : s = (n : ℤ) := by omega
    subst hs
    simp
  · exact (Int.emod_eq_of_lt (by omega) (by omega)).symm

theorem srcRow_eq_mod {ny : ℕ} (j : Fin ny) (k : Fin 9) : srcRow j k = srcRowMod j k := by
  have hj : (j : ℤ) < ny := by exact_mod_cast j.isLt
  have h0 : (0 : ℤ) ≤ (j : ℤ) := Int.ofNat_nonneg _
  have hb := cY_bounds k
  apply Fin.ext
  show (wrapZ ny ((j : ℤ) - cY k)).toNat = (((j : ℤ) - cY k) % (ny : ℤ)).toNat
  rw [wrapZ_eq_emod ny _ (by omega) (by omega) j.pos]

theorem srcCol_eq_mod {nx : ℕ} (i : Fin nx) (k : Fin 9) : srcCol i k = srcColMod i k := by
  have hi : (i : ℤ) < nx := by exact_mod_cast i.isLt
  have h0 : (0 : ℤ) ≤ (i : ℤ) := Int.ofNat_nonneg _
  have hb := cX_bounds k
  apply Fin.ext
  show (wrapZ nx ((i : ℤ) - cX k)).toNat = (((i : ℤ) - cX k) % (nx : ℤ)).toNat
  rw [wrapZ_eq_emod nx _ (by omega) (by omega) i.pos]

/-- Direction reversal used by bounce-back: the net effect of the source's
pairwise swaps `(1↔3), (2↔4), (5↔7), (6↔8)` with direction 0 fixed, expressed
as reading the reversed direction of the pre-step cell values. -/
def reflect : Fin 9 → Fin 9 := ![0, 3, 4, 1, 2, 7, 8, 5, 6]

/-- Bounce-back: at obstacle cells the populations are replaced by their
pairwise-reversed pre-step values (the source reads `f1..f8` into temporaries
before writing, so each new value is the old value of the opposite
direction); non-obstacle cells are untouched. -/
def bounceBack {ny nx : ℕ} (mask : Fin ny → Fin nx → Bool) (F : Grid ny nx) :
    Grid ny nx :=
  fun j i k => if mask j i then F j i (reflect k) else F j i k

/-- Row source index for the outflow edge copies:
row `0` reads row `1`, row `ny-1` reads row `ny-2`, interior rows unchanged.
(The `% ny` is only there to form a valid index; for `ny ≥ 3`, as required of
valid grids, it is the identity on `1` and `ny-2`.) -/
def outRowSrc {ny : ℕ} (j : Fin ny) : Fin ny :=
  if j.val = 0 then ⟨1 % ny, Nat.mod_lt _ j.pos⟩
  else if j.val = ny - 1 then ⟨(ny - 2) % ny, Nat.mod_lt _ j.pos⟩
  else j

/-- Column source index for the outflow edge copies. -/
def outColSrc {nx : ℕ} (i : Fin nx) : Fin nx :=
  if i.val = 0 then ⟨1 % nx, Nat.mod_lt _ i.pos⟩
  else if i.val = nx - 1 then ⟨(nx - 2) % nx, Nat.mod_lt _ i.pos⟩
  else i

/-- First outflow pass (rows): `F[0,i,k], F[ny-1,i,k] = F[1,i,k], F[ny-2,i,k]`. -/
def outflowRows {ny nx : ℕ} (F : Grid ny nx) : Grid ny nx :=
  fun j i k => F (outRowSrc j) i k

/-- Second outflow pass (columns), run by the source after the row pass has
completed: `F[j,0,k], F[j,nx-1,k] = F[j,1,k], F[j,nx-2,k]`. -/
def outflowCols {ny nx : ℕ} (F : Grid ny nx) : Grid ny nx :=
  fun j i k => F j (outColSrc i) k

/-- The outflow boundary step: row pass then column pass, in source order. -/
def outflow {ny nx : ℕ} (F : Grid ny nx) : Grid ny nx :=
  outflowCols (outflowRows F)

/-- The divide-by-near-zero guard threshold `1e-12`. -/
def eps : ℚ := 1 / 10 ^ 12

/-- Macroscopic density: `rho[j,i] = s_rho = Σ_k F[j,i,k]`. -/
def rhoOf {ny nx : ℕ} (F : Grid ny nx) : Field ny nx :=
  fun j i => ∑ k, F j i k

/-- The momentum sum `s_ux = Σ_k F[j,i,k] * c_x[k]`. -/
def sumUx {ny nx : ℕ} (F : Grid ny nx) : Field ny nx :=
  fun j i => ∑ k, F j i k * (cX k : ℚ)

/-- The momentum sum `s_uy = Σ_k F[j,i,k] * c_y[k]`. -/
def sumUy {ny nx : ℕ} (F : Grid ny nx) : Field ny nx :=
  fun j i => ∑ k, F j i k * (cY k : ℚ)

/-- Macroscopic x-velocity with the source's guard:
`if s_rho > 1e-12: ux = s_ux / s_rho else ux = 0`. -/
def uxOf {ny nx : ℕ} (F : Grid ny nx) : Field ny nx :=
  fun j i => if eps < rhoOf F j i then sumUx F j i / rhoOf F j i else 0

/-- Macroscopic y-velocity with the source's guard. -/
def uyOf {ny nx : ℕ} (F : Grid ny nx) : Field ny nx :=
  fun j i => if eps < rhoOf F j i then sumUy F j i / rhoOf F j i else 0

/-- The inflow edge forcing applied to one velocity component: the source's
`if wind_deg >= 315 or wind_deg < 45 / elif ... / else` chain selects one
edge and overwrites the component there with the inlet value `val`. -/
def inflowForce {ny nx : ℕ} (windDeg : ℚ) (val : ℚ) (u : Field ny nx) :
    Field ny nx :=
  fun j i =>
    if 315 ≤ windDeg ∨ windDeg < 45 then
      (if j.val = 0 then val else u j i)
    else if 45 ≤ windDeg ∧ windDeg < 135 then
      (if i.val = nx - 1 then val else u j i)
    else if 135 ≤ windDeg ∧ windDeg < 225 then
      (if j.val = ny - 1 then val else u j i)
    else
      (if i.val = 0 then val else u j i)

/-- BGK equilibrium: `cu = ux*c_x[k] + uy*c_y[k]`,
`eq = rho * w[k] * (1 + 3*cu + 4.5*cu*cu - 1.5*usq)`. -/
def feq (rho ux uy : ℚ) (k : Fin 9) : ℚ :=
  rho * w k *
    (1 + 3 * (ux * (cX k : ℚ) + uy * (cY k : ℚ)) +
      4.5 * (ux * (cX k : ℚ) + uy * (cY k : ℚ)) * (ux * (cX k : ℚ) + uy * (cY k : ℚ)) -
      1.5 * (ux * ux + uy * uy))

/-- BGK collision: `F[j,i,k] += relaxation_rate * (eq - F[j,i,k])`. -/
def collide {ny nx : ℕ} (ω : ℚ) (rho ux uy : Field ny nx) (F : Grid ny nx) :
    Grid ny nx :=
  fun j i k => F j i k + ω * (feq (rho j i) (ux j i) (uy j i) k - F j i k)

/-- One loop iteration, in source order: streaming (with buffer swap),
bounce-back, outflow, macroscopic recompute, inflow forcing, collision.
Returns the post-collision populations together with the `(ux, uy)` fields
as they stand after the inflow forcing (the values the arrays hold when the
iteration ends). -/
def iterOnce {ny nx : ℕ} (mask : Fin ny → Fin nx → Bool) (ω windDeg vx vy : ℚ)
    (F : Grid ny nx) : Grid ny nx × Field ny nx × Field ny nx :=
  let F3 := outflow (bounceBack mask (stream F))
  let r := rhoOf F3
  let u2 := inflowForce windDeg vx (uxOf F3)
  let v2 := inflowForce windDeg vy (uyOf F3)
  (collide ω r u2 v2 F3, u2, v2)

/-- The population component of one iteration. -/
def fullStep {ny nx : ℕ} (mask : Fin ny → Fin nx → Bool) (ω windDeg vx vy : ℚ)
    (F : Grid ny nx) : Grid ny nx :=
  (iterOnce mask ω windDeg vx vy F).1

/-- The main simulation loop `for it in range(max_iter)`: runs the iteration
body exactly `n` times, threading only the population grid; `ux` and `uy`
start as zeros and afterwards hold the values written by the last
iteration's macroscopic/inflow steps. -/
def simLoop {ny nx : ℕ} (mask : Fin ny → Fin nx → Bool) (ω windDeg vx vy : ℚ) :
    ℕ → Grid ny nx → Grid ny nx × Field ny nx × Field ny nx
  | 0, F => (F, fun _ _ => 0, fun _ _ => 0)
  | n + 1, F => iterOnce mask ω windDeg vx vy (simLoop mask ω windDeg vx vy n F).1

/-- The initial lattice `F = np.ones((ny, nx, 9))`. -/
def initF (ny nx : ℕ) : Grid ny nx := fun _ _ _ => 1

/-- The inlet reference speed `inlet_velocity_magnitude = 0.1`. -/
def inletSpeed : ℚ := 1 / 10

/-- The final unit scaling: `scale = wind_speed / inlet_velocity_magnitude`,
`ux_real[j,i] = ux[j,i] * scale`. -/
def scaleVel {ny nx : ℕ} (windSpeed : ℚ) (u : Field ny nx) : Field ny nx :=
  fun j i => u j i * (windSpeed / inletSpeed)

/-- The whole kernel: run the loop `maxIter` times from the all-ones lattice,
then scale the last iteration's velocity fields to physical units. -/
def runSim {ny nx : ℕ} (mask : Fin ny → Fin nx → Bool)
    (ω windDeg vx vy windSpeed : ℚ) (maxIter : ℕ) :
    Field ny nx × Field ny nx :=
  let res := simLoop mask ω windDeg vx vy maxIter (initF ny nx)
  (scaleVel windSpeed res.2.1, scaleVel windSpeed res.2.2)

end LBM

namespace LBM

theorem simLoop_fst_iterate {ny nx : ℕ} (mask : Fin ny → Fin nx → Bool)
    (ω windDeg vx vy : ℚ) (n : ℕ) (F : Grid ny nx) :
    (simLoop mask ω windDeg vx vy n F).1 = (fullStep mask ω windDeg vx vy)^[n] F := by
  induction n with
  | zero => rfl
  | succ m ih =>
      show (iterOnce mask ω windDeg vx vy (simLoop mask ω windDeg vx vy m F).1).1 = _
      rw [ih, Function.iterate_succ_apply']
      rfl

end LBM

/-- C1: immediately after the streaming step of an iteration, the live
(post-swap) population buffer at `(j,i,k)` equals the pre-streaming buffer's
value at the toroidally wrapped source cell
`((j - c_ky[k]) mod ny, (i - c_kx[k]) mod nx)` for the same `k`; every
streamed value is determined by (read from) the pre-step snapshot `F` only,
since the staging buffer is a pure function of that snapshot. -/
theorem c1_streaming_periodic_snapshot {ny nx : ℕ} (F : LBM.Grid ny nx)
    (j : Fin ny) (i : Fin nx) (k : Fin 9) :
    LBM.stream F j i k = F (LBM.srcRowMod j k) (LBM.srcColMod i k) k := by
  unfold LBM.stream
  rw [LBM.srcRow_eq_mod, LBM.srcCol_eq_mod]

/-- C2: each iteration applies, in this exact order, streaming, bounce-back,
outflow edge copies, macroscopic recompute, inflow velocity forcing, then BGK
collision (first conjunct: the population update is the collision of the
inflow-forced macroscopic fields of the outflow-corrected, bounce-backed,
streamed lattice); the loop body is executed exactly `max_iterations` times
with no convergence-based early exit (second conjunct: after `n` iterations
the populations are the `n`-fold iterate of that step, for every `n`); and
the returned velocity fields are the ones produced by the last iteration
(third conjunct). -/
theorem c2_iteration_order_and_count {ny nx : ℕ} (mask : Fin ny → Fin nx → Bool)
    (ω windDeg vx vy : ℚ) :
    (∀ F : LBM.Grid ny nx,
      LBM.fullStep mask ω windDeg vx vy F =
        LBM.collide ω (LBM.rhoOf (LBM.outflow (LBM.bounceBack mask (LBM.stream F))))
          (LBM.inflowForce windDeg vx
            (LBM.uxOf (LBM.outflow (LBM.bounceBack mask (LBM.stream F)))))
          (LBM.inflowForce windDeg vy
            (LBM.uyOf (LBM.outflow (LBM.bounceBack mask (LBM.stream F)))))
          (LBM.outflow (LBM.bounceBack mask (LBM.stream F)))) ∧
    (∀ (n : ℕ) (F : LBM.Grid ny nx),
      (LBM.simLoop mask ω windDeg vx vy n F).1 =
        (LBM.fullStep mask ω windDeg vx vy)^[n] F) ∧
    (∀ (n : ℕ) (F : LBM.Grid ny nx),
      (LBM.simLoop mask ω windDeg vx vy (n + 1) F).2.1 =
        LBM.inflowForce windDeg vx
          (LBM.uxOf (LBM.outflow (LBM.bounceBack mask
            (LBM.stream ((LBM.fullStep mask ω windDeg vx vy)^[n] F))))) ∧
      (LBM.simLoop mask ω windDeg vx vy (n + 1) F).2.2 =
        LBM.inflowForce windDeg vy
          (LBM.uyOf (LBM.outflow (LBM.bounceBack mask
            (LBM.stream ((LBM.fullStep mask ω windDeg vx vy)^[n] F)))))) := by
  refine ⟨fun F => rfl, LBM.simLoop_fst_iterate mask ω windDeg vx vy, fun n F => ?_⟩
  constructor
  · show (LBM.iterOnce mask ω windDeg vx vy
      (LBM.simLoop mask ω windDeg vx vy n F).1).2.1 = _
    rw [LBM.simLoop_fst_iterate]
    rfl
  · show (LBM.iterOnce mask ω windDeg vx vy
      (LBM.simLoop mask ω windDeg vx vy n F).1).2.2 = _
    rw [LBM.simLoop_fst_iterate]
    rfl

/-- C4: after the bounce-back step, at every cell where the obstacle mask is
true the populations are pairwise exchanged relative to their pre-step
values — new F1 = old F3 and conversely, likewise for the pairs (2,4),
(5,7), (6,8) — while direction 0 is unchanged; at every cell where the mask
is false all 9 populations are unchanged. -/
theorem c4_bounce_back_pairs {ny nx : ℕ} (mask : Fin ny → Fin nx → Bool)
    (F : LBM.Grid ny nx) (j : Fin ny) (i : Fin nx) :
    (mask j i = true →
      LBM.bounceBack mask F j i 1 = F j i 3 ∧ LBM.bounceBack mask F j i 3 = F j i 1 ∧
      LBM.bounceBack mask F j i 2 = F j i 4 ∧ LBM.bounceBack mask F j i 4 = F j i 2 ∧
      LBM.bounceBack mask F j i 5 = F j i 7 ∧ LBM.bounceBack mask F j i 7 = F j i 5 ∧
      LBM.bounceBack mask F j i 6 = F j i 8 ∧ LBM.bounceBack mask F j i 8 = F j i 6 ∧
      LBM.bounceBack mask F j i 0 = F j i 0) ∧
    (mask j i = false → ∀ k, LBM.bounceBack mask F j i k = F j i k) := by
  constructor
  · intro h
    simp only [LBM.bounceBack, h, if_true]
    exact ⟨rfl, rfl, rfl, rfl, rfl, rfl, rfl, rfl, rfl⟩
  · intro h k
    simp [LBM.bounceBack, h]

/-- C4 witness: on a concrete 1×1 grid with an all-true mask and populations
`F k = k`, the theorem's swap equalities hold, e.g. the new direction-1
population equals the old direction-3 population. -/
theorem c4_bounce_back_pairs_witness :
    ((fun _ _ => true) : Fin 1 → Fin 1 → Bool) 0 0 = true ∧
    LBM.bounceBack ((fun _ _ => true) : Fin 1 → Fin 1 → Bool)
      ((fun _ _ k => ((k : ℕ) : ℚ)) : LBM.Grid 1 1) 0 0 1 = 3 := by
  refine ⟨rfl, ?_⟩
  have h := (c4_bounce_back_pairs ((fun _ _ => true) : Fin 1 → Fin 1 → Bool)
    ((fun _ _ k => ((k : ℕ) : ℚ)) : LBM.Grid 1 1) 0 0).1 rfl
  have h1 := h.1
  norm_num at h1 ⊢
  exact h1

/-- C5: in the macroscopic recompute, for every cell, `rho` is the sum of the
9 populations, the guard threshold is exactly `1e-12 = 1/10^12`, a cell with
`rho ≤ 1e-12` gets velocity exactly `(0,0)` (no division performed), and the
division by `rho` occurs only in the complementary case `rho > 1e-12`. -/
theorem c5_density_guard {ny nx : ℕ} (F : LBM.Grid ny nx) (j : Fin ny) (i : Fin nx) :
    LBM.rhoOf F j i = ∑ k, F j i k ∧
    LBM.eps = 1 / 10 ^ 12 ∧
    (LBM.rhoOf F j i ≤ LBM.eps → LBM.uxOf F j i = 0 ∧ LBM.uyOf F j i = 0) ∧
    (LBM.eps < LBM.rhoOf F j i →
      LBM.uxOf F j i = LBM.sumUx F j i / LBM.rhoOf F j i ∧
      LBM.uyOf F j i = LBM.sumUy F j i / LBM.rhoOf F j i) := by
  refine ⟨rfl, rfl, fun h => ?_, fun h => ?_⟩
  · constructor <;> simp [LBM.uxOf, LBM.uyOf, not_lt.mpr h]
  · constructor <;> simp [LBM.uxOf, LBM.uyOf, h]

/-- C5 witness: on a concrete all-zero 1×1 lattice the density is
`0 ≤ 1e-12` and the fallback gives velocity exactly `(0,0)`. -/
theorem c5_density_guard_witness :
    LBM.rhoOf (fun (_ : Fin 1) (_ : Fin 1) (_ : Fin 9) => (0 : ℚ)) 0 0 ≤ LBM.eps ∧
    LBM.uxOf (fun (_ : Fin 1) (_ : Fin 1) (_ : Fin 9) => (0 : ℚ)) 0 0 = 0 ∧
    LBM.uyOf (fun (_ : Fin 1) (_ : Fin 1) (_ : Fin 9) => (0 : ℚ)) 0 0 = 0 := by
  have hrho : LBM.rhoOf (fun (_ : Fin 1) (_ : Fin 1) (_ : Fin 9) => (0 : ℚ)) 0 0 ≤ LBM.eps := by
    norm_num [LBM.rhoOf, LBM.eps]
  have h := (c5_density_guard (fun (_ : Fin 1) (_ : Fin 1) (_ : Fin 9) => (0 : ℚ)) 0 0).2.2.1 hrho
  exact ⟨hrho, h.1, h.2⟩

/-- C10: the returned physical velocity field equals the final lattice
velocity field multiplied componentwise by `wind_speed / 0.1`; in particular
for `wind_speed = 5.0` every returned component is the lattice component
times exactly `50.0`. -/
theorem c10_physical_scaling {ny nx : ℕ} (mask : Fin ny → Fin nx → Bool)
    (ω windDeg vx vy : ℚ) (maxIter : ℕ) (j : Fin ny) (i : Fin nx) :
    (∀ s : ℚ,
      (LBM.runSim mask ω windDeg vx vy s maxIter).1 j i =
        (LBM.simLoop mask ω windDeg vx vy maxIter (LBM.initF ny nx)).2.1 j i * (s / (1 / 10)) ∧
      (LBM.runSim mask ω windDeg vx vy s maxIter).2 j i =
        (LBM.simLoop mask ω windDeg vx vy maxIter (LBM.initF ny nx)).2.2 j i * (s / (1 / 10))) ∧
    (LBM.runSim mask ω windDeg vx vy 5 maxIter).1 j i =
      (LBM.simLoop mask ω windDeg vx vy maxIter (LBM.initF ny nx)).2.1 j i * 50 ∧
    (LBM.runSim mask ω windDeg vx vy 5 maxIter).2 j i =
      (LBM.simLoop mask ω windDeg vx vy maxIter (LBM.initF ny nx)).2.2 j i * 50 := by
  have hscale : (5 : ℚ) / (1 / 10) = 50 := by norm_num
  refine ⟨fun s => ⟨rfl, rfl⟩, ?_, ?_⟩
  · calc (LBM.runSim mask ω windDeg vx vy 5 maxIter).1 j i
        = (LBM.simLoop mask ω windDeg vx vy maxIter (LBM.initF ny nx)).2.1 j i
            * ((5 : ℚ) / (1 / 10)) := rfl
      _ = (LBM.simLoop mask ω windDeg vx vy maxIter (LBM.initF ny nx)).2.1 j i * 50 := by
          rw [hscale]
  · calc (LBM.runSim mask ω windDeg vx vy 5 maxIter).2 j i
        = (LBM.simLoop mask ω windDeg vx vy maxIter (LBM.initF ny nx)).2.2 j i
            * ((5 : ℚ) / (1 / 10)) := rfl
      _ = (LBM.simLoop mask ω windDeg vx vy maxIter (LBM.initF ny nx)).2.2 j i * 50 := by
          rw [hscale]

namespace LBM

/-- The four domain edges an inflow can force. -/
inductive Edge : Type
  | top
  | right
  | bottom
  | left
deriving DecidableEq

/-- Whether cell `(j,i)` lies on edge `e`: the top row is row `0`, the bottom
row is row `ny-1`, the left column is column `0`, the right column is column
`nx-1` (matching the rows/columns the source's inflow branches write). -/
def onEdge {ny nx : ℕ} (e : Edge) (j : Fin ny) (i : Fin nx) : Bool :=
  match e with
  | .top => j.val == 0
  | .right => i.val == nx - 1
  | .bottom => j.val == ny - 1
  | .left => i.val == 0

/-- The edge chosen by the source's inflow branch chain
`if wind_deg >= 315 or wind_deg < 45 / elif 45..135 / elif 135..225 / else`. -/
def selectedEdge (windDeg : ℚ) : Edge :=
  if 315 ≤ windDeg ∨ windDeg < 45 then .top
  else if 45 ≤ windDeg ∧ windDeg < 135 then .right
  else if 135 ≤ windDeg ∧ windDeg < 225 then .bottom
  else .left

/-- `np.deg2rad(90 - wind_deg)`: meteorological bearing to mathematical angle. -/
noncomputable def mathRad (deg : ℝ) : ℝ := (90 - deg) * (Real.pi / 180)

/-- `vel_x_sim = cos(math_rad) * inlet_velocity_magnitude` with the reference
speed `0.1`. -/
noncomputable def velXSim (deg : ℝ) : ℝ := Real.cos (mathRad deg) * (1 / 10)

/-- `vel_y_sim = sin(math_rad) * inlet_velocity_magnitude`. -/
noncomputable def velYSim (deg : ℝ) : ℝ := Real.sin (mathRad deg) * (1 / 10)

theorem inflowForce_eq_onEdge {ny nx : ℕ} (windDeg val : ℚ)
    (u : Field ny nx) (j : Fin ny) (i : Fin nx) :
    inflowForce windDeg val u j i =
      if onEdge (selectedEdge windDeg) j i then val else u j i := by
  unfold inflowForce selectedEdge onEdge
  by_cases hA : 315 ≤ windDeg ∨ windDeg < 45
  · simp only [hA, if_true]
    by_cases hj : j.val = 0 <;> simp [hj]
  · by_cases hB : 45 ≤ windDeg ∧ windDeg < 135
    · simp only [hA, hB, if_false, if_true]
      by_cases hi : i.val = nx - 1 <;> simp [hi]
    · by_cases hC : 135 ≤ windDeg ∧ windDeg < 225
      · simp only [hA, hB, hC, if_false, if_true]
        by_cases hj : j.val = ny - 1 <;> simp [hj]
      · simp only [hA, hB, hC, if_false]
        by_cases hi : i.val = 0 <;> simp [hi]

end LBM

/-- C3: for every `direction_deg` in `[0,360)`, the inflow step forces exactly
the cells of one full edge of the velocity field to the inlet value and
leaves every other cell unchanged (first conjunct); the forced edge is the
top row on `[315,360) ∪ [0,45)`, the rightmost column on `[45,135)`, the
bottom row on `[135,225)` and the leftmost column on `[225,315)`, with the
sector boundaries 45/135/225/315 belonging to the next sector (middle
conjuncts); and the inlet components are
`u0 = 0.1·cos(θ)`, `v0 = 0.1·sin(θ)` with `θ = radians(90 − direction_deg)`
(last conjunct). -/
theorem c3_inflow_edge_selection (windDeg : ℚ)
    (hlo : 0 ≤ windDeg) (hhi : windDeg < 360) :
    (∀ {ny nx : ℕ} (val : ℚ) (u : LBM.Field ny nx) (j : Fin ny) (i : Fin nx),
      LBM.inflowForce windDeg val u j i =
        if LBM.onEdge (LBM.selectedEdge windDeg) j i then val else u j i) ∧
    (windDeg < 45 → LBM.selectedEdge windDeg = LBM.Edge.top) ∧
    (315 ≤ windDeg → LBM.selectedEdge windDeg = LBM.Edge.top) ∧
    (45 ≤ windDeg → windDeg < 135 → LBM.selectedEdge windDeg = LBM.Edge.right) ∧
    (135 ≤ windDeg → windDeg < 225 → LBM.selectedEdge windDeg = LBM.Edge.bottom) ∧
    (225 ≤ windDeg → windDeg < 315 → LBM.selectedEdge windDeg = LBM.Edge.left) ∧
    (∀ d : ℝ,
      LBM.velXSim d = 0.1 * Real.cos ((90 - d) * (Real.pi / 180)) ∧
      LBM.velYSim d = 0.1 * Real.sin ((90 - d) * (Real.pi / 180))) := by
  refine ⟨fun val u j i => LBM.inflowForce_eq_onEdge windDeg val u j i,
    ?_, ?_, ?_, ?_, ?_, ?_⟩
  · intro h
    simp [LBM.selectedEdge, h]
  · intro h
    simp [LBM.selectedEdge, h]
  · intro h1 h2
    have : ¬(315 ≤ windDeg ∨ windDeg < 45) := by
      push_neg
      constructor <;> linarith
    simp [LBM.selectedEdge, this, h1, h2]
  · intro h1 h2
    have hA : ¬(315 ≤ windDeg ∨ windDeg < 45) := by
      push_neg
      constructor <;> linarith
    have hB : ¬(45 ≤ windDeg ∧ windDeg < 135) := by
      rintro ⟨-, h⟩
      linarith
    simp [LBM.selectedEdge, hA, hB, h1, h2]
  · intro h1 h2
    have hA : ¬(315 ≤ windDeg ∨ windDeg < 45) := by
      push_neg
      constructor <;> linarith
    have hB : ¬(45 ≤ windDeg ∧ windDeg < 135) := by
      rintro ⟨-, h⟩
      linarith
    have hC : ¬(135 ≤ windDeg ∧ windDeg < 225) := by
      rintro ⟨-, h⟩
      linarith
    simp [LBM.selectedEdge, hA, hB, hC]
  · intro d
    constructor
    · show Real.cos (LBM.mathRad d) * (1 / 10) = _
      rw [LBM.mathRad]
      norm_num
      ring
    · show Real.sin (LBM.mathRad d) * (1 / 10) = _
      rw [LBM.mathRad]
      norm_num
      ring

/-- C3 witness: at `direction_deg = 90` (all hypotheses concretely
satisfied) the forced edge is the rightmost column, and forcing a zero
3×3 field writes the inlet value there. -/
theorem c3_inflow_edge_selection_witness :
    (0 : ℚ) ≤ 90 ∧ (90 : ℚ) < 360 ∧
    LBM.selectedEdge 90 = LBM.Edge.right ∧
    LBM.inflowForce 90 7 ((fun _ _ => 0) : LBM.Field 3 3) 0 2 = 7 := by
  have h := c3_inflow_edge_selection 90 (by norm_num) (by norm_num)
  have hsel : LBM.selectedEdge 90 = LBM.Edge.right :=
    h.2.2.2.1 (by norm_num) (by norm_num)
  refine ⟨by norm_num, by norm_num, hsel, ?_⟩
  rw [h.1, hsel]
  norm_num [LBM.onEdge]

/-- C6 (code bug evidence): the kernel performs no input validation.  With
`relaxation_rate = 3` (outside the required open interval `(0,2)`) on a 3×3
all-clear grid, the iteration loop nevertheless executes and transforms the
lattice — after one iteration the rest population of the centre cell has
moved from its initial value `1` to `1 + 3*(4-1) = 10` — instead of the
input being rejected before the loop with no partial computation. -/
theorem c6_no_input_validation :
    (LBM.simLoop ((fun _ _ => false) : Fin 3 → Fin 3 → Bool) 3 90 (1 / 10) 0 1
        (LBM.initF 3 3)).1 1 1 0 = 10 ∧
    LBM.initF 3 3 1 1 0 = 1 := by
  have hF3 : ∀ (j : Fin 3) (i : Fin 3) (k : Fin 9),
      LBM.outflow (LBM.bounceBack (fun _ _ => false)
        (LBM.stream (LBM.initF 3 3))) j i k = 1 := fun j i k => rfl
  have hrho : LBM.rhoOf (LBM.outflow (LBM.bounceBack
      ((fun _ _ => false) : Fin 3 → Fin 3 → Bool)
      (LBM.stream (LBM.initF 3 3)))) 1 1 = 9 := by
    simp [LBM.rhoOf, Fin.sum_univ_succ, hF3]
  have hsux : LBM.sumUx (LBM.outflow (LBM.bounceBack
      ((fun _ _ => false) : Fin 3 → Fin 3 → Bool)
      (LBM.stream (LBM.initF 3 3)))) 1 1 = 0 := by
    simp [LBM.sumUx, Fin.sum_univ_succ, hF3, LBM.cX]
  have hsuy : LBM.sumUy (LBM.outflow (LBM.bounceBack
      ((fun _ _ => false) : Fin 3 → Fin 3 → Bool)
      (LBM.stream (LBM.initF 3 3)))) 1 1 = 0 := by
    simp [LBM.sumUy, Fin.sum_univ_succ, hF3, LBM.cY]
  have hux : LBM.uxOf (LBM.outflow (LBM.bounceBack
      ((fun _ _ => false) : Fin 3 → Fin 3 → Bool)
      (LBM.stream (LBM.initF 3 3)))) 1 1 = 0 := by
    simp only [LBM.uxOf, hrho, hsux]
    norm_num [LBM.eps]
  have huy : LBM.uyOf (LBM.outflow (LBM.bounceBack
      ((fun _ _ => false) : Fin 3 → Fin 3 → Bool)
      (LBM.stream (LBM.initF 3 3)))) 1 1 = 0 := by
    simp only [LBM.uyOf, hrho, hsuy]
    norm_num [LBM.eps]
  have hiu : LBM.inflowForce 90 (1 / 10) (LBM.uxOf (LBM.outflow (LBM.bounceBack
      ((fun _ _ => false) : Fin 3 → Fin 3 → Bool)
      (LBM.stream (LBM.initF 3 3))))) 1 1 = 0 := by
    rw [LBM.inflowForce]
    norm_num
    exact hux
  have hiv : LBM.inflowForce 90 0 (LBM.uyOf (LBM.outflow (LBM.bounceBack
      ((fun _ _ => false) : Fin 3 → Fin 3 → Bool)
      (LBM.stream (LBM.initF 3 3))))) 1 1 = 0 := by
    rw [LBM.inflowForce]
    norm_num
    exact huy
  refine ⟨?_, rfl⟩
  show LBM.collide 3
    (LBM.rhoOf (LBM.outflow (LBM.bounceBack (fun _ _ => false)
      (LBM.stream (LBM.initF 3 3)))))
    (LBM.inflowForce 90 (1 / 10) (LBM.uxOf (LBM.outflow (LBM.bounceBack (fun _ _ => false)
      (LBM.stream (LBM.initF 3 3))))))
    (LBM.inflowForce 90 0 (LBM.uyOf (LBM.outflow (LBM.bounceBack (fun _ _ => false)
      (LBM.stream (LBM.initF 3 3))))))
    (LBM.outflow (LBM.bounceBack (fun _ _ => false)
      (LBM.stream (LBM.initF 3 3)))) 1 1 0 = 10
  rw [LBM.collide, hrho, hiu, hiv, hF3]
  norm_num [LBM.feq, LBM.w, LBM.cX, LBM.cY]

namespace LBM

/-- The statistics border width hardcoded in
`WindSimulationPipeline._process_simulation_results` (`buffer = 10`); note it
is a local constant there, not the pipeline's `buffer_size` parameter. -/
def statBuffer : ℕ := 10

/-- `magnitude = np.sqrt(ux**2 + uy**2)`. -/
noncomputable def magnitudeGrid (ux uy : ℕ → ℕ → ℝ) : ℕ → ℕ → ℝ :=
  fun j i => Real.sqrt (ux j i ^ 2 + uy j i ^ 2)

/-- `core_magnitude = magnitude[buffer:-buffer, buffer:-buffer]`, flattened
row-major: for an `ny × nx` magnitude array the slice keeps rows
`10 .. ny-11` and columns `10 .. nx-11`. -/
def coreMagnitudes (ny nx : ℕ) (mag : ℕ → ℕ → ℝ) : List ℝ :=
  (List.range (ny - 2 * statBuffer)).flatMap fun a =>
    (List.range (nx - 2 * statBuffer)).map fun b =>
      mag (statBuffer + a) (statBuffer + b)

/-- `np.min` of a flattened nonempty array (0 on the empty array, on which
numpy instead raises). -/
noncomputable def npMin : List ℝ → ℝ
  | [] => 0
  | x :: xs => xs.foldl min x

/-- `np.max` of a flattened nonempty array. -/
noncomputable def npMax : List ℝ → ℝ
  | [] => 0
  | x :: xs => xs.foldl max x

/-- `np.mean`: sum divided by element count. -/
noncomputable def npMean (l : List ℝ) : ℝ := l.sum / l.length

/-- `np.std`: square root of the mean squared deviation from the mean. -/
noncomputable def npStd (l : List ℝ) : ℝ :=
  Real.sqrt (npMean (l.map fun x => (x - npMean l) ^ 2))

/-- The `flow_statistics` dict built by `_process_simulation_results`, as the
ordered list of its key/value pairs (the source additionally rounds each
value to `OUTPUT_PRECISION = 4` decimal places when storing it). -/
noncomputable def flowStatistics (ny nx : ℕ) (mag : ℕ → ℕ → ℝ) :
    List (String × ℝ) :=
  [("min_magnitude", npMin (coreMagnitudes ny nx mag)),
   ("max_magnitude", npMax (coreMagnitudes ny nx mag)),
   ("mean_magnitude", npMean (coreMagnitudes ny nx mag)),
   ("std_magnitude", npStd (coreMagnitudes ny nx mag))]

theorem foldl_min_le_init (xs : List ℝ) (x0 : ℝ) : xs.foldl min x0 ≤ x0 := by
  induction xs generalizing x0 with
  | nil => exact le_refl _
  | cons z zs ih => exact le_trans (ih (min x0 z)) (min_le_left _ _)

theorem foldl_min_le_mem (xs : List ℝ) (x0 y : ℝ) (h : y ∈ xs) :
    xs.foldl min x0 ≤ y := by
  induction xs generalizing x0 with
  | nil => cases h
  | cons z zs ih =>
      rcases List.mem_cons.mp h with rfl | hmem
      · exact le_trans (foldl_min_le_init zs (min x0 y)) (min_le_right _ _)
      · exact ih (min x0 z) hmem

theorem le_foldl_max_init (xs : List ℝ) (x0 : ℝ) : x0 ≤ xs.foldl max x0 := by
  induction xs generalizing x0 with
  | nil => exact le_refl _
  | cons z zs ih => exact le_trans (le_max_left _ _) (ih (max x0 z))

theorem le_foldl_max_mem (xs : List ℝ) (x0 y : ℝ) (h : y ∈ xs) :
    y ≤ xs.foldl max x0 := by
  induction xs generalizing x0 with
  | nil => cases h
  | cons z zs ih =>
      rcases List.mem_cons.mp h with rfl | hmem
      · exact le_trans (le_max_right _ _) (le_foldl_max_init zs (max x0 y))
      · exact ih (max x0 z) hmem

theorem npMin_le (l : List ℝ) (y : ℝ) (h : y ∈ l) : npMin l ≤ y := by
  cases l with
  | nil => cases h
  | cons x xs =>
      rcases List.mem_cons.mp h with rfl | hmem
      · exact foldl_min_le_init xs y
      · exact foldl_min_le_mem xs x y hmem

theorem le_npMax (l : List ℝ) (y : ℝ) (h : y ∈ l) : y ≤ npMax l := by
  cases l with
  | nil => cases h
  | cons x xs =>
      rcases List.mem_cons.mp h with rfl | hmem
      · exact le_foldl_max_init xs y
      · exact le_foldl_max_mem xs x y hmem

theorem mem_coreMagnitudes (a b : ℕ) (mag : ℕ → ℕ → ℝ) (x : ℝ) :
    x ∈ coreMagnitudes (a + 21) (b + 21) mag ↔
      ∃ p q, p ≤ a ∧ q ≤ b ∧ x = mag (10 + p) (10 + q) := by
  unfold coreMagnitudes statBuffer
  rw [show a + 21 - 2 * 10 = a + 1 by omega, show b + 21 - 2 * 10 = b + 1 by omega]
  simp only [List.mem_flatMap, List.mem_map, List.mem_range]
  constructor
  · rintro ⟨p, hp, q, hq, rfl⟩
    exact ⟨p, q, by omega, by omega, rfl⟩
  · rintro ⟨p, q, hp, hq, rfl⟩
    exact ⟨p, by omega, q, by omega, rfl⟩

theorem length_coreMagnitudes (a b : ℕ) (mag : ℕ → ℕ → ℝ) :
    (coreMagnitudes (a + 21) (b + 21) mag).length = (a + 1) * (b + 1) := by
  unfold coreMagnitudes statBuffer
  rw [show a + 21 - 2 * 10 = a + 1 by omega, show b + 21 - 2 * 10 = b + 1 by omega]
  rw [List.length_flatMap]
  have hc : (List.length ∘ fun p : ℕ =>
      (List.range (b + 1)).map fun q => mag (10 + p) (10 + q)) = fun _ => b + 1 := by
    funext p
    simp
  rw [hc, List.map_const', List.sum_replicate, List.length_range, smul_eq_mul]

end LBM

/-- C7 counterexample: on a concrete 21×21 magnitude grid the statistics
actually produced are exactly `min_magnitude`, `max_magnitude`,
`mean_magnitude` and `std_magnitude` — no median and no percentile entry is
produced — and the excluded border width is the hardcoded local constant 10,
not the pipeline's configurable `buffer_size` parameter (which the
statistics code never receives). -/
theorem c7_flow_statistics_counterexample :
    (LBM.flowStatistics 21 21 (fun _ _ => 0)).map Prod.fst =
      ["min_magnitude", "max_magnitude", "mean_magnitude", "std_magnitude"] ∧
    "median_magnitude" ∉ (LBM.flowStatistics 21 21 (fun _ _ => 0)).map Prod.fst ∧
    LBM.statBuffer = 10 := by
  refine ⟨rfl, ?_, rfl⟩
  intro h
  have hkeys : (LBM.flowStatistics 21 21 (fun _ _ => 0)).map Prod.fst =
      ["min_magnitude", "max_magnitude", "mean_magnitude", "std_magnitude"] := rfl
  rw [hkeys] at h
  simp at h

/-- C7 (amended): the flow statistics produced for a finished velocity field
are the min, max, mean and std (only — no median, no percentiles) of the
velocity magnitude `sqrt(ux²+uy²)`, computed over the grid interior
excluding a fixed border of width 10 (hardcoded, not the `buffer_size`
parameter): the key list is exactly those four statistics; the interior
sample has exactly `(ny-20)·(nx-20)` entries, namely the magnitudes at the
cells `(10+p, 10+q)`; the reported min/max bound every interior magnitude;
the mean is the interior sum over the interior count; and the magnitude grid
is pointwise `sqrt(ux²+uy²)`. -/
theorem c7_flow_statistics_amended (a b : ℕ) (mag : ℕ → ℕ → ℝ) :
    ((LBM.flowStatistics (a + 21) (b + 21) mag).map Prod.fst =
      ["min_magnitude", "max_magnitude", "mean_magnitude", "std_magnitude"]) ∧
    (LBM.coreMagnitudes (a + 21) (b + 21) mag).length = (a + 1) * (b + 1) ∧
    (∀ x : ℝ, x ∈ LBM.coreMagnitudes (a + 21) (b + 21) mag ↔
      ∃ p q, p ≤ a ∧ q ≤ b ∧ x = mag (10 + p) (10 + q)) ∧
    (∀ p q, p ≤ a → q ≤ b →
      LBM.npMin (LBM.coreMagnitudes (a + 21) (b + 21) mag) ≤ mag (10 + p) (10 + q) ∧
      mag (10 + p) (10 + q) ≤ LBM.npMax (LBM.coreMagnitudes (a + 21) (b + 21) mag)) ∧
    LBM.npMean (LBM.coreMagnitudes (a + 21) (b + 21) mag) =
      (LBM.coreMagnitudes (a + 21) (b + 21) mag).sum / (((a + 1) * (b + 1) : ℕ) : ℝ) ∧
    (∀ (ux uy : ℕ → ℕ → ℝ) (j i : ℕ),
      LBM.magnitudeGrid ux uy j i = Real.sqrt (ux j i ^ 2 + uy j i ^ 2)) := by
  refine ⟨rfl, LBM.length_coreMagnitudes a b mag, LBM.mem_coreMagnitudes a b mag,
    fun p q hp hq => ?_, ?_, fun ux uy j i => rfl⟩
  · have hmem : mag (10 + p) (10 + q) ∈ LBM.coreMagnitudes (a + 21) (b + 21) mag :=
      (LBM.mem_coreMagnitudes a b mag _).mpr ⟨p, q, hp, hq, rfl⟩
    exact ⟨LBM.npMin_le _ _ hmem, LBM.le_npMax _ _ hmem⟩
  · rw [LBM.npMean, LBM.length_coreMagnitudes a b mag]

/-- C7 witness: concrete instantiation of the amended statement at the zero
magnitude grid with `ny = nx = 21` and the interior cell `(10, 10)`. -/
theorem c7_flow_statistics_amended_witness :
    (0 : ℕ) ≤ 0 ∧
    LBM.npMin (LBM.coreMagnitudes 21 21 (fun _ _ => (0 : ℝ))) ≤
      (fun _ _ => (0 : ℝ)) (10 + 0) (10 + 0) := by
  have h := c7_flow_statistics_amended 0 0 (fun _ _ => (0 : ℝ))
  exact ⟨le_refl 0, (h.2.2.2.1 0 0 (le_refl 0) (le_refl 0)).1⟩

namespace LBM

theorem wv0 : w 0 = 4/9 := rfl
theorem wv1 : w 1 = 1/9 := rfl
theorem wv2 : w 2 = 1/9 := rfl
theorem wv3 : w 3 = 1/9 := rfl
theorem wv4 : w 4 = 1/9 := rfl
theorem wv5 : w 5 = 1/36 := rfl
theorem wv6 : w 6 = 1/36 := rfl
theorem wv7 : w 7 = 1/36 := rfl
theorem wv8 : w 8 = 1/36 := rfl

theorem cxv0 : cX 0 = 0 := rfl
theorem cxv1 : cX 1 = 1 := rfl
theorem cxv2 : cX 2 = 0 := rfl
theorem cxv3 : cX 3 = -1 := rfl
theorem cxv4 : cX 4 = 0 := rfl
theorem cxv5 : cX 5 = 1 := rfl
theorem cxv6 : cX 6 = -1 := rfl
theorem cxv7 : cX 7 = -1 := rfl
theorem cxv8 : cX 8 = 1 := rfl

theorem cyv0 : cY 0 = 0 := rfl
theorem cyv1 : cY 1 = 0 := rfl
theorem cyv2 : cY 2 = 1 := rfl
theorem cyv3 : cY 3 = 0 := rfl
theorem cyv4 : cY 4 = -1 := rfl
theorem cyv5 : cY 5 = 1 := rfl
theorem cyv6 : cY 6 = 1 := rfl
theorem cyv7 : cY 7 = -1 := rfl
theorem cyv8 : cY 8 = -1 := rfl

theorem sum9 (f : Fin 9 → ℚ) :
    ∑ k, f k = f 0 + f 1 + f 2 + f 3 + f 4 + f 5 + f 6 + f 7 + f 8 := by
  rw [Fin.sum_univ_castSucc, Fin.sum_univ_eight]
  rfl

/-- The 9 equilibrium populations sum to the density: `Σ_k feq(ρ,u,v,k) = ρ`. -/
theorem feq_sum (rho u v : ℚ) : ∑ k, feq rho u v k = rho := by
  rw [sum9]
  simp only [feq, wv0, wv1, wv2, wv3, wv4, wv5, wv6, wv7, wv8,
    cxv0, cxv1, cxv2, cxv3, cxv4, cxv5, cxv6, cxv7, cxv8,
    cyv0, cyv1, cyv2, cyv3, cyv4, cyv5, cyv6, cyv7, cyv8]
  push_cast
  ring

/-- Collision preserves every cell's density (for any velocity fields fed to
the equilibrium, in particular the inflow-forced ones). -/
theorem rhoOf_collide {ny nx : ℕ} (ω : ℚ) (u v : Field ny nx) (F : Grid ny nx)
    (j : Fin ny) (i : Fin nx) :
    rhoOf (collide ω (rhoOf F) u v F) j i = rhoOf F j i := by
  show (∑ k, (F j i k + ω * (feq (rhoOf F j i) (u j i) (v j i) k - F j i k)))
    = rhoOf F j i
  rw [Finset.sum_add_distrib, ← Finset.mul_sum, Finset.sum_sub_distrib, feq_sum]
  show rhoOf F j i + ω * (rhoOf F j i - rhoOf F j i) = rhoOf F j i
  ring

theorem srcRow_injective {ny : ℕ} (k : Fin 9) :
    Function.Injective (fun j : Fin ny => srcRow j k) := by
  intro j j' h
  have h' : srcRowMod j k = srcRowMod j' k := by
    rw [← srcRow_eq_mod, ← srcRow_eq_mod]
    exact h
  have hn : (0 : ℤ) < (ny : ℤ) := by exact_mod_cast j.pos
  have hval : (((j : ℤ) - cY k) % (ny : ℤ)).toNat
      = (((j' : ℤ) - cY k) % (ny : ℤ)).toNat := congrArg Fin.val h'
  have hnn1 := Int.emod_nonneg ((j : ℤ) - cY k) (by omega : (ny : ℤ) ≠ 0)
  have hnn2 := Int.emod_nonneg ((j' : ℤ) - cY k) (by omega : (ny : ℤ) ≠ 0)
  have hmod : ((j : ℤ) - cY k) % (ny : ℤ) = ((j' : ℤ) - cY k) % (ny : ℤ) := by omega
  have hj : (j : ℤ) % (ny : ℤ) = (j' : ℤ) % (ny : ℤ) := by
    have e1 : (j : ℤ) % (ny : ℤ) = (((j : ℤ) - cY k) + cY k) % (ny : ℤ) := by
      rw [sub_add_cancel]
    have e2 : (j' : ℤ) % (ny : ℤ) = (((j' : ℤ) - cY k) + cY k) % (ny : ℤ) := by
      rw [sub_add_cancel]
    rw [e1, e2, Int.add_emod, hmod, ← Int.add_emod]
  have hjlt : (j : ℤ) < (ny : ℤ) := by exact_mod_cast j.isLt
  have hjlt' : (j' : ℤ) < (ny : ℤ) := by exact_mod_cast j'.isLt
  have hj0 : (0 : ℤ) ≤ (j : ℤ) := Int.ofNat_nonneg _
  have hj0' : (0 : ℤ) ≤ (j' : ℤ) := Int.ofNat_nonneg _
  rw [Int.emod_eq_of_lt hj0 hjlt, Int.emod_eq_of_lt hj0' hjlt'] at hj
  apply Fin.ext
  exact_mod_cast hj

theorem srcCol_injective {nx : ℕ} (k : Fin 9) :
    Function.Injective (fun i : Fin nx => srcCol i k) := by
  intro i i' h
  have h' : srcColMod i k = srcColMod i' k := by
    rw [← srcCol_eq_mod, ← srcCol_eq_mod]
    exact h
  have hn : (0 : ℤ) < (nx : ℤ) := by exact_mod_cast i.pos
  have hval : (((i : ℤ) - cX k) % (nx : ℤ)).toNat
      = (((i' : ℤ) - cX k) % (nx : ℤ)).toNat := congrArg Fin.val h'
  have hnn1 := Int.emod_nonneg ((i : ℤ) - cX k) (by omega : (nx : ℤ) ≠ 0)
  have hnn2 := Int.emod_nonneg ((i' : ℤ) - cX k) (by omega : (nx : ℤ) ≠ 0)
  have hmod : ((i : ℤ) - cX k) % (nx : ℤ) = ((i' : ℤ) - cX k) % (nx : ℤ) := by omega
  have hi : (i : ℤ) % (nx : ℤ) = (i' : ℤ) % (nx : ℤ) := by
    have e1 : (i : ℤ) % (nx : ℤ) = (((i : ℤ) - cX k) + cX k) % (nx : ℤ) := by
      rw [sub_add_cancel]
    have e2 : (i' : ℤ) % (nx : ℤ) = (((i' : ℤ) - cX k) + cX k) % (nx : ℤ) := by
      rw [sub_add_cancel]
    rw [e1, e2, Int.add_emod, hmod, ← Int.add_emod]
  have hilt : (i : ℤ) < (nx : ℤ) := by exact_mod_cast i.isLt
  have hilt' : (i' : ℤ) < (nx : ℤ) := by exact_mod_cast i'.isLt
  have hi0 : (0 : ℤ) ≤ (i : ℤ) := Int.ofNat_nonneg _
  have hi0' : (0 : ℤ) ≤ (i' : ℤ) := Int.ofNat_nonneg _
  rw [Int.emod_eq_of_lt hi0 hilt, Int.emod_eq_of_lt hi0' hilt'] at hi
  apply Fin.ext
  exact_mod_cast hi

/-- Total mass: the sum of all 9 populations over all cells. -/
def totalMass {ny nx : ℕ} (F : Grid ny nx) : ℚ := ∑ j, ∑ i, ∑ k, F j i k

/-- Streaming is a permutation of the population entries within each
direction, hence preserves the total mass. -/
theorem totalMass_stream {ny nx : ℕ} (F : Grid ny nx) :
    totalMass (stream F) = totalMass F := by
  unfold totalMass stream
  have key : ∀ k : Fin 9,
      (∑ j, ∑ i, F (srcRow j k) (srcCol i k) k) = ∑ j, ∑ i, F j i k := by
    intro k
    have hcol : ∀ j : Fin ny,
        (∑ i, F (srcRow j k) (srcCol i k) k) = ∑ i, F (srcRow j k) i k := by
      intro j
      exact Fintype.sum_bijective (fun i => srcCol i k)
        (Finite.injective_iff_bijective.mp (srcCol_injective k)) _ _ (fun i => rfl)
    calc (∑ j, ∑ i, F (srcRow j k) (srcCol i k) k)
        = ∑ j, ∑ i, F (srcRow j k) i k :=
          Finset.sum_congr rfl (fun j _ => hcol j)
      _ = ∑ j, ∑ i, F j i k :=
          Fintype.sum_bijective (fun j => srcRow j k)
            (Finite.injective_iff_bijective.mp (srcRow_injective k)) _ _
            (fun j => rfl)
  calc (∑ j, ∑ i, ∑ k, F (srcRow j k) (srcCol i k) k)
      = ∑ j, ∑ k : Fin 9, ∑ i, F (srcRow j k) (srcCol i k) k :=
        Finset.sum_congr rfl fun j _ => Finset.sum_comm
    _ = ∑ k : Fin 9, ∑ j, ∑ i, F (srcRow j k) (srcCol i k) k := Finset.sum_comm
    _ = ∑ k : Fin 9, ∑ j, ∑ i, F j i k := Finset.sum_congr rfl fun k _ => key k
    _ = ∑ j, ∑ k : Fin 9, ∑ i, F j i k := Finset.sum_comm
    _ = ∑ j, ∑ i, ∑ k, F j i k := Finset.sum_congr rfl fun j _ => Finset.sum_comm

end LBM

namespace LBM

theorem bounceBack_false {ny nx : ℕ} (F : Grid ny nx) :
    bounceBack (fun _ _ => false) F = F := by
  funext j i k
  simp [bounceBack]

end LBM

/-- C8: with an all-false obstacle mask and the outflow and inflow edge rules
disabled (periodic core), the total density — the sum of all 9 populations
over all cells — is invariant across an iteration: streaming permutes the
population entries and so preserves the total (first conjunct), bounce-back
does nothing on the all-false mask (second), the 9 equilibrium values sum to
`rho` (third), collision therefore preserves each cell's density whatever
velocity fields it is fed (fourth), and the composite
stream-then-collide update leaves the total mass unchanged (fifth). -/
theorem c8_mass_conservation {ny nx : ℕ} (ω : ℚ) (u v : LBM.Field ny nx)
    (F : LBM.Grid ny nx) :
    LBM.totalMass (LBM.stream F) = LBM.totalMass F ∧
    LBM.bounceBack (fun _ _ => false) F = F ∧
    (∀ rho ux uy : ℚ, ∑ k, LBM.feq rho ux uy k = rho) ∧
    (∀ (j : Fin ny) (i : Fin nx),
      LBM.rhoOf (LBM.collide ω (LBM.rhoOf F) u v F) j i = LBM.rhoOf F j i) ∧
    LBM.totalMass
      (LBM.collide ω
        (LBM.rhoOf (LBM.bounceBack (fun _ _ => false) (LBM.stream F)))
        (LBM.uxOf (LBM.bounceBack (fun _ _ => false) (LBM.stream F)))
        (LBM.uyOf (LBM.bounceBack (fun _ _ => false) (LBM.stream F)))
        (LBM.bounceBack (fun _ _ => false) (LBM.stream F)))
      = LBM.totalMass F ∧
    (∀ n : ℕ,
      LBM.totalMass
        ((fun G : LBM.Grid ny nx =>
          LBM.collide ω
            (LBM.rhoOf (LBM.bounceBack (fun _ _ => false) (LBM.stream G)))
            (LBM.uxOf (LBM.bounceBack (fun _ _ => false) (LBM.stream G)))
            (LBM.uyOf (LBM.bounceBack (fun _ _ => false) (LBM.stream G)))
            (LBM.bounceBack (fun _ _ => false) (LBM.stream G)))^[n] F)
        = LBM.totalMass F) := by
  have hstep : ∀ G : LBM.Grid ny nx,
      LBM.totalMass
        (LBM.collide ω
          (LBM.rhoOf (LBM.bounceBack (fun _ _ => false) (LBM.stream G)))
          (LBM.uxOf (LBM.bounceBack (fun _ _ => false) (LBM.stream G)))
          (LBM.uyOf (LBM.bounceBack (fun _ _ => false) (LBM.stream G)))
          (LBM.bounceBack (fun _ _ => false) (LBM.stream G)))
        = LBM.totalMass G := by
    intro G
    rw [LBM.bounceBack_false]
    have hcell : ∀ (j : Fin ny) (i : Fin nx),
        (∑ k, LBM.collide ω (LBM.rhoOf (LBM.stream G)) (LBM.uxOf (LBM.stream G))
          (LBM.uyOf (LBM.stream G)) (LBM.stream G) j i k)
          = ∑ k, LBM.stream G j i k :=
      fun j i => LBM.rhoOf_collide ω (LBM.uxOf (LBM.stream G))
        (LBM.uyOf (LBM.stream G)) (LBM.stream G) j i
    calc LBM.totalMass (LBM.collide ω (LBM.rhoOf (LBM.stream G))
          (LBM.uxOf (LBM.stream G)) (LBM.uyOf (LBM.stream G)) (LBM.stream G))
        = LBM.totalMass (LBM.stream G) := by
          unfold LBM.totalMass
          exact Finset.sum_congr rfl fun j _ =>
            Finset.sum_congr rfl fun i _ => hcell j i
      _ = LBM.totalMass G := LBM.totalMass_stream G
  refine ⟨LBM.totalMass_stream F, LBM.bounceBack_false F, LBM.feq_sum,
    fun j i => LBM.rhoOf_collide ω u v F j i, hstep F, ?_⟩
  intro n
  induction n with
  | zero => rfl
  | succ m ih =>
      rw [Function.iterate_succ_apply', hstep, ih]

/-- C9: if every cell holds the equilibrium populations `F_k = w_k` (uniform
zero-velocity field), one full iteration with no obstacles and no inflow
forcing leaves every population unchanged: streaming, bounce-back on the
all-false mask and the outflow copies are the identity on the uniform field,
the recomputed macroscopic state is `rho = 1`, `(ux,uy) = (0,0)`, the
equilibrium populations reproduce `w_k`, and the collision increment
vanishes, for every relaxation rate. -/
theorem c9_equilibrium_fixed_point {ny nx : ℕ} (ω : ℚ) :
    LBM.stream ((fun _ _ k => LBM.w k) : LBM.Grid ny nx) = (fun _ _ k => LBM.w k) ∧
    LBM.bounceBack (fun _ _ => false) ((fun _ _ k => LBM.w k) : LBM.Grid ny nx)
      = (fun _ _ k => LBM.w k) ∧
    LBM.outflow ((fun _ _ k => LBM.w k) : LBM.Grid ny nx) = (fun _ _ k => LBM.w k) ∧
    (∀ (j : Fin ny) (i : Fin nx),
      LBM.rhoOf ((fun _ _ k => LBM.w k) : LBM.Grid ny nx) j i = 1 ∧
      LBM.uxOf ((fun _ _ k => LBM.w k) : LBM.Grid ny nx) j i = 0 ∧
      LBM.uyOf ((fun _ _ k => LBM.w k) : LBM.Grid ny nx) j i = 0) ∧
    (∀ k, LBM.feq 1 0 0 k = LBM.w k) ∧
    LBM.collide ω
      (LBM.rhoOf ((fun _ _ k => LBM.w k) : LBM.Grid ny nx))
      (LBM.uxOf ((fun _ _ k => LBM.w k) : LBM.Grid ny nx))
      (LBM.uyOf ((fun _ _ k => LBM.w k) : LBM.Grid ny nx))
      ((fun _ _ k => LBM.w k) : LBM.Grid ny nx) = (fun _ _ k => LBM.w k) := by
  have hrho : ∀ (j : Fin ny) (i : Fin nx),
      LBM.rhoOf ((fun _ _ k => LBM.w k) : LBM.Grid ny nx) j i = 1 := by
    intro j i
    show (∑ k, LBM.w k) = 1
    rw [LBM.sum9]
    norm_num [LBM.wv0, LBM.wv1, LBM.wv2, LBM.wv3, LBM.wv4, LBM.wv5, LBM.wv6,
      LBM.wv7, LBM.wv8]
  have hsux : ∀ (j : Fin ny) (i : Fin nx),
      LBM.sumUx ((fun _ _ k => LBM.w k) : LBM.Grid ny nx) j i = 0 := by
    intro j i
    show (∑ k, LBM.w k * (LBM.cX k : ℚ)) = 0
    rw [LBM.sum9]
    norm_num [LBM.wv0, LBM.wv1, LBM.wv2, LBM.wv3, LBM.wv4, LBM.wv5, LBM.wv6,
      LBM.wv7, LBM.wv8, LBM.cxv0, LBM.cxv1, LBM.cxv2, LBM.cxv3, LBM.cxv4,
      LBM.cxv5, LBM.cxv6, LBM.cxv7, LBM.cxv8]
  have hsuy : ∀ (j : Fin ny) (i : Fin nx),
      LBM.sumUy ((fun _ _ k => LBM.w k) : LBM.Grid ny nx) j i = 0 := by
    intro j i
    show (∑ k, LBM.w k * (LBM.cY k : ℚ)) = 0
    rw [LBM.sum9]
    norm_num [LBM.wv0, LBM.wv1, LBM.wv2, LBM.wv3, LBM.wv4, LBM.wv5, LBM.wv6,
      LBM.wv7, LBM.wv8, LBM.cyv0, LBM.cyv1, LBM.cyv2, LBM.cyv3, LBM.cyv4,
      LBM.cyv5, LBM.cyv6, LBM.cyv7, LBM.cyv8]
  have hux : ∀ (j : Fin ny) (i : Fin nx),
      LBM.uxOf ((fun _ _ k => LBM.w k) : LBM.Grid ny nx) j i = 0 := by
    intro j i
    simp only [LBM.uxOf, hrho j i, hsux j i]
    norm_num [LBM.eps]
  have huy : ∀ (j : Fin ny) (i : Fin nx),
      LBM.uyOf ((fun _ _ k => LBM.w k) : LBM.Grid ny nx) j i = 0 := by
    intro j i
    simp only [LBM.uyOf, hrho j i, hsuy j i]
    norm_num [LBM.eps]
  have hfeq : ∀ k, LBM.feq 1 0 0 k = LBM.w k := by
    intro k
    unfold LBM.feq
    ring
  refine ⟨rfl, LBM.bounceBack_false _, rfl,
    fun j i => ⟨hrho j i, hux j i, huy j i⟩, hfeq, ?_⟩
  funext j i k
  show LBM.w k + ω * (LBM.feq
      (LBM.rhoOf ((fun _ _ k => LBM.w k) : LBM.Grid ny nx) j i)
      (LBM.uxOf ((fun _ _ k => LBM.w k) : LBM.Grid ny nx) j i)
      (LBM.uyOf ((fun _ _ k => LBM.w k) : LBM.Grid ny nx) j i) k - LBM.w k)
    = LBM.w k
  rw [hrho j i, hux j i, huy j i, hfeq k]
  ring
